import Mathlib

/-!
Verification of the density-driven adaptive-precision compression engine
(`src/src/density/density.cpp`, class `Density`).

The C++ is embedded shallowly:
* machine integers become `Nat`/`Int`; `float`/`double` arithmetic is
  idealized as exact rational arithmetic (`ℚ`) — every concrete input used
  in a theorem below is exactly representable and its arithmetic exact in
  IEEE single/double precision, so the idealization is faithful there;
* `std::vector` writes through `operator[]` become guarded list updates
  returning `Option`/`Except`: an out-of-range write (undefined behavior
  in the C++) takes the error branch;
* failed `assert`s and thrown exceptions become error values;
* the MPI collectives are modeled for a single rank, where `MPI_Allreduce`
  of a min/max/sum is the identity on the local value.
-/

/-! ### Guarded array writes -/

/-- A guarded store `l[i] = v` for a `std::vector<long>`/`std::vector<int>`
cell: `none` models the out-of-bounds write, which is undefined behavior in
the C++ source. -/
def listSet (l : List ℕ) (i : ℕ) (v : ℕ) : Option (List ℕ) :=
  if i < l.length then some (l.set i v) else none

/-- Loop `for (; n writes remaining; ++lo) bits[lo] = v;` — the body of each
hard-coded assignment loop in `Density::assignBits`, one write per step. -/
def setRangeN (v : ℕ) : List ℕ → ℕ → ℕ → Option (List ℕ)
  | bits, _, 0 => some bits
  | bits, lo, n + 1 => (listSet bits lo v).bind (fun b => setRangeN v b (lo + 1) n)

/-- Loop `for (int i = lo; i < hi; ++i) bits[i] = v;` from
`Density::assignBits`. -/
def setRange (v : ℕ) (bits : List ℕ) (lo hi : ℕ) : Option (List ℕ) :=
  setRangeN v bits lo (hi - lo)

/-! ### `Density::Density` — dispatch of density input files to ranks
(`density.cpp` lines 77–100) -/

inductive ConfigError
  | rankMismatch
  | assertFailed
  deriving DecidableEq

/-- `Density::Density`, lines 77–100: decides whether the density-inputs
list of length `partition_size` is accepted for `nb_ranks` ranks and, if
so, how many files each rank receives (`offset`).  `rankMismatch` models
the thrown `std::runtime_error`; `assertFailed` models `assert(offset)`. -/
def dispatchFiles (nb_ranks partition_size : ℕ) : Except ConfigError ℕ :=
  let rank_mismatch := partition_size < nb_ranks ∨ partition_size % nb_ranks ≠ 0
  if nb_ranks = 1 ∨ ¬ rank_mismatch then
    let offset := partition_size / nb_ranks
    if offset = 0 then Except.error ConfigError.assertFailed else Except.ok offset
  else Except.error ConfigError.rankMismatch

/-- The spec's validation rule, stated from its words: the `inputs` length
is either `1` or a multiple of the rank count. -/
def specAcceptsInputs (len nb_ranks : ℕ) : Prop :=
  len = 1 ∨ len % nb_ranks = 0

instance (len nb_ranks : ℕ) : Decidable (specAcceptsInputs len nb_ranks) := by
  unfold specAcceptsInputs; infer_instance

/-! ### `Density::computeDensityBins` — adaptive bin count override
(`density.cpp` lines 311–317) -/

/-- `nb_bins = static_cast<int>(2 * std::pow(local_rho_count, 2.0/5));`
(line 315).  Idealizing the `double` arithmetic as exact real arithmetic,
the truncation of the nonnegative value `2·n^(2/5)` is the greatest
integer `m` with `m^5 ≤ 32·n²` (because `(2·n^(2/5))^5 = 32·n²`), which
`Nat.findGreatest` computes; `2*n` bounds it since `n^(2/5) ≤ n`. -/
def adaptiveNbBins (local_rho_count : ℕ) : ℕ :=
  Nat.findGreatest (fun m => m ^ 5 ≤ 32 * local_rho_count ^ 2) (2 * local_rho_count)

/-- `bin_capacity = static_cast<long>(local_rho_count / double(nb_bins));`
(line 316): truncation of the nonnegative quotient is natural division. -/
def adaptiveBinCapacity (local_rho_count : ℕ) : ℕ :=
  local_rho_count / adaptiveNbBins local_rho_count

/-! ### `Density::deduceBucketIndex`, uniform branch
(`density.cpp` lines 417–425) -/

/-- The `not use_adaptive_binning` branch of `Density::deduceBucketIndex`:
`min(floor(rho / (local_rho_max - local_rho_min) * nb_bins), nb_bins - 1)`.
Note the C++ divides `rho` itself (no `- local_rho_min` shift) and uses the
rank-local extents.  The enclosing `assert(rho < local_rho_max)` is a
precondition recorded in the theorems, not part of the value. -/
def deduceBucketIndexUniform (local_rho_min local_rho_max : ℚ) (nb_bins : ℕ)
    (rho : ℚ) : ℤ :=
  let coef := rho / (local_rho_max - local_rho_min)
  min ⌊coef * (nb_bins : ℚ)⌋ ((nb_bins : ℤ) - 1)

/-- The spec's uniform bucket formula, stated from its words:
`clamp(⌊(v − ρ_min)/w⌋, 0, nb_bins − 1)` with `w = (ρ_max − ρ_min)/nb_bins`,
`ρ_min`/`ρ_max` the global all-reduced extents. -/
def specUniformBucketIndex (rho_min rho_max : ℚ) (nb_bins : ℕ) (v : ℚ) : ℤ :=
  let w := (rho_max - rho_min) / (nb_bins : ℚ)
  max 0 (min ⌊(v - rho_min) / w⌋ ((nb_bins : ℤ) - 1))

/-! ### `Density::deduceDensityIndex` (`density.cpp` lines 395–414) -/

/-- `Density::deduceDensityIndex`: shift each coordinate by `coords_min`,
scale by `cells_per_axis / range`, `std::floor`, and flatten as
`i + j·C + k·C²`.  The function has no domain check of its own; the only
guard in the source is `assert(density_index < local_rho_count)` at the
call site in `Density::bucketParticles` (line 449). -/
def deduceDensityIndex (coords_min coords_max : Fin 3 → ℚ) (cells_per_axis : ℤ)
    (particle : Fin 3 → ℚ) : ℤ :=
  let shifted : Fin 3 → ℚ := fun d => particle d - coords_min d
  let range : Fin 3 → ℚ := fun d => coords_max d - coords_min d
  let logical : Fin 3 → ℤ :=
    fun d => ⌊shifted d * (cells_per_axis : ℚ) / range d⌋
  logical 0 + logical 1 * cells_per_axis +
    logical 2 * cells_per_axis * cells_per_axis

/-! ### `Density::computeFrequencies` (`density.cpp` lines 225–281) -/

inductive DensityError
  | invalidRange
  | divByZero
  | indexOutOfRange
  deriving DecidableEq

/-- `static_cast<int>` / `static_cast<long>` of a `double`: truncation
toward zero. -/
def cppTruncQ (q : ℚ) : ℤ :=
  if 0 ≤ q then ⌊q⌋ else ⌈q⌉

/-- `*std::min_element(density_field, ...)` (line 236); defaults to `0` on
the empty field, which the source excludes by `assert(local_rho_count)`. -/
def localMin : List ℚ → ℚ
  | [] => 0
  | x :: xs => xs.foldl min x

/-- `*std::max_element(density_field, ...)` (line 237). -/
def localMax : List ℚ → ℚ
  | [] => 0
  | x :: xs => xs.foldl max x

/-- Body of the uniform histogram loop (lines 252–258): `relative_value =
(v - rho_min) / range`, `bin_index = (int)((range * relative_value) /
capacity)` with `capacity = range / nb_bins`, then `if (bin_index >=
nb_bins) bin_index--`.  When `range = 0` the C++ computes `0.0/0.0` (NaN)
and the integer cast is undefined behavior, modeled by `divByZero`. -/
def uniformHistoBin (rho_min rho_max : ℚ) (nb_bins : ℕ) (v : ℚ) :
    Except DensityError ℤ :=
  let range := rho_max - rho_min
  if range = 0 then Except.error DensityError.divByZero
  else
    let capacity := range / (nb_bins : ℚ)
    let relative_value := (v - rho_min) / range
    let bin_index := cppTruncQ (range * relative_value / capacity)
    Except.ok (if (nb_bins : ℤ) ≤ bin_index then bin_index - 1 else bin_index)

/-- `local_histo[bin_index]++` (line 259).  The C++ applies no bounds
check; an out-of-range increment is undefined behavior, modeled by
`indexOutOfRange`. -/
def histIncr (h : List ℤ) (b : ℤ) : Except DensityError (List ℤ) :=
  if 0 ≤ b ∧ b.toNat < h.length then
    Except.ok (h.set b.toNat (h.getD b.toNat 0 + 1))
  else Except.error DensityError.indexOutOfRange

/-- The uniform histogram loop over the density field (lines 252–260). -/
def frequenciesLoop (rho_min rho_max : ℚ) (nb_bins : ℕ) :
    List ℤ → List ℚ → Except DensityError (List ℤ)
  | h, [] => Except.ok h
  | h, v :: rest =>
      (uniformHistoBin rho_min rho_max nb_bins v).bind fun b =>
        (histIncr h b).bind fun h2 =>
          frequenciesLoop rho_min rho_max nb_bins h2 rest

/-- `Density::computeFrequencies`, single-rank model (the all-reduces of
min, max and sum are identities).  The uniform branch histograms the field
against the global extents; the adaptive branch (lines 261–266) fills every
bin with `static_cast<long>(local_rho_count / double(nb_bins))` without
looking at the extents at all.  Nothing in the function checks
`rho_max ≤ rho_min`; no `InvalidRange` error exists in the source. -/
def computeFrequencies (use_adaptive_binning : Bool) (nb_bins : ℕ)
    (field : List ℚ) : Except DensityError (List ℤ) :=
  if use_adaptive_binning then
    Except.ok (List.replicate nb_bins ((field.length / nb_bins : ℕ) : ℤ))
  else
    frequenciesLoop (localMin field) (localMax field) nb_bins
      (List.replicate nb_bins 0) field

/-! ### `Density::assignBits` (`density.cpp` lines 349–392) -/

/-- `bool const mode = 2;` (line 351): the C++ bool-from-int conversion
maps any nonzero value to `true`. -/
def modeFlag : Bool := decide (2 ≠ 0)

/-- The `mode == 1` test of line 356: the `bool` is promoted to the `int`
`1` (for `true`) or `0` (for `false`) and compared with `1`. -/
def modeSelectsVariant1 : Bool := decide ((if modeFlag then (1 : ℤ) else 0) = 1)

/-- Lines 357–365: the `mode == 1` ladder.  `bits` starts as the
value-initialized (all-zero) vector produced by `bits.resize(nb_bins)` in
the constructor (line 107). -/
def assignBitsVariant1 (nb_bins min_bits max_bits : ℕ) : Option (List ℕ) :=
  (listSet (List.replicate nb_bins 0) 0 min_bits).bind fun b =>
  (setRange 20 b 1 2).bind fun b =>
  (setRange 21 b 2 5).bind fun b =>
  (setRange 22 b 5 25).bind fun b =>
  (setRange 23 b 25 100).bind fun b =>
  (setRange 24 b 100 200).bind fun b =>
  (setRange 25 b 200 500).bind fun b =>
  (setRange 26 b 500 1200).bind fun b =>
  setRange max_bits b 1200 nb_bins

/-- Lines 367–375: the `else` (intended "variant 2") ladder. -/
def assignBitsVariant2 (nb_bins min_bits max_bits : ℕ) : Option (List ℕ) :=
  (listSet (List.replicate nb_bins 0) 0 min_bits).bind fun b =>
  (setRange 22 b 1 2).bind fun b =>
  (setRange 22 b 2 5).bind fun b =>
  (setRange 23 b 5 25).bind fun b =>
  (setRange 24 b 25 100).bind fun b =>
  (setRange 25 b 100 200).bind fun b =>
  (setRange 26 b 200 500).bind fun b =>
  (setRange 26 b 500 1200).bind fun b =>
  setRange max_bits b 1200 nb_bins

/-- Lines 377–390, the adaptive policy: outer loop over
`i < values_width`, inner loop writing `bits[i*N + j]` for `j < N` with
value `min_bits + i` when `i < 2` and `max_bits` otherwise.  The inner
loop's consecutive writes `i*N + j`, `j = 0..N-1`, are `setRangeN` at
offset `i*N`. -/
def adaptiveOuter (min_bits max_bits nb_values_per_bit : ℕ) :
    List ℕ → ℕ → ℕ → Option (List ℕ)
  | bits, _, 0 => some bits
  | bits, i, m + 1 =>
      (setRangeN (if i < 2 then min_bits + i else max_bits) bits
          (i * nb_values_per_bit) nb_values_per_bit).bind
        fun b => adaptiveOuter min_bits max_bits nb_values_per_bit b (i + 1) m

/-- The adaptive branch of `Density::assignBits`:
`values_width = 1 + max_bits - min_bits`,
`nb_values_per_bit = nb_bins / values_width` (integer division). -/
def assignBitsAdaptive (nb_bins min_bits max_bits : ℕ) : Option (List ℕ) :=
  let values_width := 1 + max_bits - min_bits
  let nb_values_per_bit := nb_bins / values_width
  adaptiveOuter min_bits max_bits nb_values_per_bit
    (List.replicate nb_bins 0) 0 values_width

/-- `Density::assignBits`: branch on `use_adaptive_binning`, then on the
(bool-converted) `mode` flag. -/
def assignBits (use_adaptive_binning : Bool) (nb_bins min_bits max_bits : ℕ) :
    Option (List ℕ) :=
  if ¬ use_adaptive_binning then
    if modeSelectsVariant1 then assignBitsVariant1 nb_bins min_bits max_bits
    else assignBitsVariant2 nb_bins min_bits max_bits
  else assignBitsAdaptive nb_bins min_bits max_bits

/-! ### `Density::bucketParticles` (`density.cpp` lines 440–470) -/

/-- `buckets[bucket_index].emplace_back(i)` guarded by
`assert(bucket_index < nb_bins)` (lines 451–453): the failed assert is the
`none` branch. -/
def emplaceBucket (bks : List (List ℕ)) (b i : ℕ) : Option (List (List ℕ)) :=
  if b < bks.length then some (bks.set b (bks.getD b [] ++ [i])) else none

/-- The particle loop of `Density::bucketParticles`: `n` iterations
starting at particle `i`, `bucketOf` the composite
`deduceBucketIndex(density_field[deduceDensityIndex(particle i)])`. -/
def bucketLoop (bucketOf : ℕ → ℕ) :
    List (List ℕ) → ℕ → ℕ → Option (List (List ℕ))
  | bks, _, 0 => some bks
  | bks, i, n + 1 =>
      (emplaceBucket bks (bucketOf i) i).bind
        fun b => bucketLoop bucketOf b (i + 1) n

/-- `Density::bucketParticles`, abstracted over the per-particle bucket
index: the bucket table starts as the `nb_bins` empty lists produced by
`buckets.resize(nb_bins)` in the constructor (line 106), then particle
`i = 0 .. local_particles - 1` is appended to bucket `bucketOf i`. -/
def bucketParticles (local_particles nb_bins : ℕ) (bucketOf : ℕ → ℕ) :
    Option (List (List ℕ)) :=
  bucketLoop bucketOf (List.replicate nb_bins []) 0 local_particles

/-! ### `Density::process` and `Density::dump`
(`density.cpp` lines 613–654 and 684–705) -/

/-- The bucket loop of `Density::process(step)`: for each bucket `j` in
order, gather `data[p]` for the particle indices `p` of the bucket (in
bucket order) and append the codec round-trip of that dataset to
`decompressed[step]`.  The fpzip compress-then-decompress pair is modeled
as an elementwise transform `rt` parameterized by the bucket's bit budget
`bits j` — the codec returns exactly `nb_elems` values in input order.  An
empty bucket is skipped by the `continue` (line 622), which coincides with
appending the empty gather. -/
def processComponent (rt : ℕ → α → α) (bits : ℕ → ℕ) (data : ℕ → α) :
    ℕ → List (List ℕ) → List α
  | _, [] => []
  | j, bkt :: rest =>
      bkt.map (fun p => rt (bits j) (data p)) ++
        processComponent rt bits data (j + 1) rest

/-- The gather loops of `Density::dump` (lines 687–691 and 698–702): one
pass over the buckets in order, emitting `col[i]` for each particle index
`i` of each bucket — used for `id` and the three velocity components. -/
def dumpColumn (col : ℕ → β) (buckets : List (List ℕ)) : List β :=
  (buckets.map (fun bkt => bkt.map col)).flatten

/-- The common source-particle order of all seven output columns: bucket
order, then within-bucket insertion order. -/
def bucketOrder (buckets : List (List ℕ)) : List ℕ :=
  buckets.flatten

/-- The bucket index that produced each position of `bucketOrder`. -/
def bucketTags : ℕ → List (List ℕ) → List ℕ
  | _, [] => []
  | j, bkt :: rest => bkt.map (fun _ => j) ++ bucketTags (j + 1) rest

/-! ## Helper lemmas -/

theorem foldl_min_le_init (xs : List ℚ) : ∀ x : ℚ, xs.foldl min x ≤ x := by
  induction xs with
  | nil => intro x; exact le_refl x
  | cons y ys ih => intro x; exact le_trans (ih (min x y)) (min_le_left x y)

theorem le_foldl_max_init (xs : List ℚ) : ∀ x : ℚ, x ≤ xs.foldl max x := by
  induction xs with
  | nil => intro x; exact le_refl x
  | cons y ys ih => intro x; exact le_trans (le_max_left x y) (ih (max x y))

theorem localMin_le_localMax (v : ℚ) (rest : List ℚ) :
    localMin (v :: rest) ≤ localMax (v :: rest) :=
  le_trans (foldl_min_le_init rest v) (le_foldl_max_init rest v)

/-! ## C3 — adaptive bin-count override -/

/-- Claim C3 counterexample: with `P_local = 100` the code truncates
`2·100^(2/5) = 12.619…` to `12` (not the claimed ceiling `13`), and
`bin_capacity = ⌊100/12⌋ = 8` (not `7`). -/
theorem adaptiveNbBins_100_counterexample :
    adaptiveNbBins 100 = 12 ∧ adaptiveBinCapacity 100 = 8 ∧
      ¬ (adaptiveNbBins 100 = 13 ∧ adaptiveBinCapacity 100 = 7) := by
  refine ⟨by decide, by decide, ?_⟩
  intro h
  exact absurd h.1 (by decide)

/-- Claim C3, amended: when adaptive binning is enabled,
`computeDensityBins` overrides `nb_bins` with the *floor* (C truncation) of
`2 · P_local^(2/5)` — characterized by `nb_bins^5 ≤ 32·P_local² <
(nb_bins+1)^5` — and sets `bin_capacity = ⌊P_local / nb_bins⌋`. -/
theorem adaptiveNbBins_floor_characterization (n : ℕ) (h : 0 < n) :
    adaptiveNbBins n ^ 5 ≤ 32 * n ^ 2 ∧
      32 * n ^ 2 < (adaptiveNbBins n + 1) ^ 5 ∧
      adaptiveBinCapacity n = n / adaptiveNbBins n := by
  have hiff := (Nat.findGreatest_eq_iff
    (P := fun m => m ^ 5 ≤ 32 * n ^ 2) (k := 2 * n)
    (m := adaptiveNbBins n)).mp rfl
  refine ⟨?_, ?_, rfl⟩
  · rcases Nat.eq_zero_or_pos (adaptiveNbBins n) with h0 | hpos
    · rw [h0]; positivity
    · exact hiff.2.1 (Nat.pos_iff_ne_zero.mp hpos)
  · rcases Nat.lt_or_ge (adaptiveNbBins n) (2 * n) with hlt | hge
    · have := hiff.2.2 (Nat.lt_succ_self (adaptiveNbBins n)) hlt
      simp only [Nat.succ_eq_add_one] at this
      omega
    · have heq : adaptiveNbBins n = 2 * n := le_antisymm hiff.1 hge
      rw [heq]
      have h1 : n ^ 2 ≤ n ^ 5 := Nat.pow_le_pow_right h (by omega)
      have h2 : (2 * n) ^ 5 < (2 * n + 1) ^ 5 :=
        Nat.pow_lt_pow_left (by omega) (by omega)
      have h3 : (2 * n) ^ 5 = 32 * n ^ 5 := by ring
      omega

/-- Witness for `adaptiveNbBins_floor_characterization` at `n = 100`. -/
theorem adaptiveNbBins_floor_characterization_witness :
    0 < 100 ∧
      (adaptiveNbBins 100 ^ 5 ≤ 32 * 100 ^ 2 ∧
        32 * 100 ^ 2 < (adaptiveNbBins 100 + 1) ^ 5 ∧
        adaptiveBinCapacity 100 = 100 / adaptiveNbBins 100) :=
  ⟨by decide, adaptiveNbBins_floor_characterization 100 (by decide)⟩

/-! ## C9 — rank dispatch of density inputs -/

/-- Claim C9 counterexample: an inputs list of length `1` on `2` ranks is
accepted by the spec's rule (`length = 1`) but rejected by the code
(`partition_size < nb_ranks` makes `rank_mismatch` true and
`nb_ranks != 1`). -/
theorem dispatchFiles_single_input_counterexample :
    specAcceptsInputs 1 2 ∧
      dispatchFiles 2 1 = Except.error ConfigError.rankMismatch :=
  ⟨Or.inl rfl, rfl⟩

/-- Claim C9, amended: the constructor accepts exactly when `nb_ranks = 1`
with a nonempty inputs list, or the length is at least `nb_ranks` and a
multiple of it (a length-1 list on several ranks is rejected); on success
each rank receives `length / nb_ranks` density files. -/
theorem dispatchFiles_acceptance_amended (nb_ranks len : ℕ) (h : 0 < nb_ranks) :
    ((∃ k, dispatchFiles nb_ranks len = Except.ok k) ↔
      0 < len ∧ (nb_ranks = 1 ∨ (nb_ranks ≤ len ∧ len % nb_ranks = 0)))
    ∧ ∀ k, dispatchFiles nb_ranks len = Except.ok k → k = len / nb_ranks := by
  unfold dispatchFiles
  by_cases hc : nb_ranks = 1 ∨ ¬ (len < nb_ranks ∨ len % nb_ranks ≠ 0)
  · rw [if_pos hc]
    by_cases hz : len / nb_ranks = 0
    · rw [if_pos hz]
      have hlen : len < nb_ranks := (Nat.div_eq_zero_iff h).mp hz
      constructor
      · constructor
        · rintro ⟨k, hk⟩; exact absurd hk (by simp)
        · rintro ⟨hpos, h1 | ⟨h2, _⟩⟩
          · omega
          · omega
      · intro k hk; exact absurd hk (by simp)
    · rw [if_neg hz]
      constructor
      · constructor
        · intro _
          have hpos : 0 < len := by
            rcases Nat.eq_zero_or_pos len with h0 | h0
            · rw [h0] at hz; simp [Nat.zero_div] at hz
            · exact h0
          refine ⟨hpos, ?_⟩
          rcases hc with h1 | h2
          · exact Or.inl h1
          · push_neg at h2
            exact Or.inr ⟨Nat.le_of_not_lt (by intro hlt; omega), h2.2⟩
        · intro _; exact ⟨len / nb_ranks, rfl⟩
      · intro k hk
        have : Except.ok (ε := ConfigError) (len / nb_ranks) = Except.ok k := hk
        cases this; rfl
  · rw [if_neg hc]
    push_neg at hc
    constructor
    · constructor
      · rintro ⟨k, hk⟩; exact absurd hk (by simp)
      · rintro ⟨hpos, h1 | ⟨h2, h3⟩⟩
        · exact absurd h1 hc.1
        · rcases hc.2 with hlt | hmod
          · omega
          · exact absurd h3 hmod
    · intro k hk; exact absurd hk (by simp)

/-- Witness for `dispatchFiles_acceptance_amended` at the spec's E5 inputs
`len = 8`, `nb_ranks = 4`: accepted, two files per rank. -/
theorem dispatchFiles_acceptance_amended_witness :
    0 < 4 ∧
      (((∃ k, dispatchFiles 4 8 = Except.ok k) ↔
          0 < 8 ∧ (4 = 1 ∨ (4 ≤ 8 ∧ 8 % 4 = 0)))
        ∧ ∀ k, dispatchFiles 4 8 = Except.ok k → k = 8 / 4) :=
  ⟨by decide, dispatchFiles_acceptance_amended 4 8 (by decide)⟩

/-! ## C1 — uniform bucket index formula -/

/-- Claim C1 counterexample: with (single-rank, so global = local) extents
`ρ_min = 1`, `ρ_max = 3` and `nb_bins = 2`, the value `v = 1 ∈ [ρ_min, ρ_max]`
(also satisfying the source's `assert(rho < local_rho_max)`) lands in
bucket `1` under the code — `⌊(1/(3−1))·2⌋ = 1` — while the claimed formula
`clamp(⌊(v−ρ_min)/w⌋, 0, nb_bins−1)` with `w = 1` gives bucket `0`. -/
theorem deduceBucketIndex_counterexample :
    deduceBucketIndexUniform 1 3 2 1 = 1 ∧ specUniformBucketIndex 1 3 2 1 = 0 ∧
      deduceBucketIndexUniform 1 3 2 1 ≠ specUniformBucketIndex 1 3 2 1 := by
  have h1 : deduceBucketIndexUniform 1 3 2 1 = 1 := by
    norm_num [deduceBucketIndexUniform]
  have h2 : specUniformBucketIndex 1 3 2 1 = 0 := by
    norm_num [specUniformBucketIndex]
  exact ⟨h1, h2, by rw [h1, h2]; norm_num⟩

/-- Claim C1, amended: the uniform branch of `deduceBucketIndex` divides the
*unshifted* value by the *rank-local* density range: for
`0 ≤ ρ_min_loc ≤ v < ρ_max_loc` it equals
`clamp(⌊v / w⌋, 0, nb_bins − 1)` with `w = (ρ_max_loc − ρ_min_loc)/nb_bins`
(the `ρ_min` shift of the claim is absent; it agrees with the claimed
formula only when `ρ_min = 0` and the local extents equal the global
ones). -/
theorem deduceBucketIndex_uniform_local_formula (rmin rmax : ℚ) (nb : ℕ)
    (v : ℚ) (h0 : 0 ≤ rmin) (hlt : rmin < rmax) (hnb : 0 < nb)
    (hv1 : rmin ≤ v) (hv2 : v < rmax) :
    deduceBucketIndexUniform rmin rmax nb v =
      max 0 (min ⌊v / ((rmax - rmin) / (nb : ℚ))⌋ ((nb : ℤ) - 1)) := by
  have hr : (0 : ℚ) < rmax - rmin := by linarith
  have hv0 : (0 : ℚ) ≤ v := le_trans h0 hv1
  have hdiv : v / ((rmax - rmin) / (nb : ℚ)) = v / (rmax - rmin) * (nb : ℚ) := by
    rw [div_div_eq_mul_div, div_mul_eq_mul_div]
  rw [hdiv]
  have hfl : 0 ≤ ⌊v / (rmax - rmin) * (nb : ℚ)⌋ := by
    apply Int.floor_nonneg.mpr
    positivity
  have hnb1 : (0 : ℤ) ≤ (nb : ℤ) - 1 := by
    have : (1 : ℤ) ≤ (nb : ℤ) := by exact_mod_cast hnb
    omega
  rw [deduceBucketIndexUniform]
  exact (max_eq_right (le_min hfl hnb1)).symm

/-- Witness for `deduceBucketIndex_uniform_local_formula` at
`ρ_min = 1, ρ_max = 3, nb_bins = 2, v = 2`. -/
theorem deduceBucketIndex_uniform_local_formula_witness :
    ((0 : ℚ) ≤ 1 ∧ (1 : ℚ) < 3 ∧ 0 < 2 ∧ (1 : ℚ) ≤ 2 ∧ (2 : ℚ) < 3) ∧
      deduceBucketIndexUniform 1 3 2 2 =
        max 0 (min ⌊(2 : ℚ) / (((3 : ℚ) - 1) / ((2 : ℕ) : ℚ))⌋ (((2 : ℕ) : ℤ) - 1)) :=
  ⟨by norm_num,
    deduceBucketIndex_uniform_local_formula 1 3 2 2 (by norm_num) (by norm_num)
      (by norm_num) (by norm_num) (by norm_num)⟩

/-! ## C8 — degenerate density extents -/

/-- Claim C8 counterexample: with the degenerate field `[5, 5]`
(`ρ_max = ρ_min = 5`) and `nb_bins = 2`, `computeFrequencies` does not fail
with `InvalidRange`: the adaptive path proceeds and returns the histogram
`[1, 1]`, and the uniform path hits the `0/0` division (undefined
behavior), not a reported `InvalidRange`. -/
theorem computeFrequencies_no_invalidRange_counterexample :
    computeFrequencies true 2 [5, 5] = Except.ok [1, 1] ∧
      computeFrequencies false 2 [5, 5] = Except.error DensityError.divByZero ∧
      computeFrequencies false 2 [5, 5] ≠ Except.error DensityError.invalidRange := by
  have h2 : computeFrequencies false 2 [5, 5] =
      Except.error DensityError.divByZero := by
    rw [computeFrequencies]
    simp only [Bool.false_eq_true, if_false, frequenciesLoop, uniformHistoBin]
    rw [if_pos
      (by norm_num [localMax, localMin] :
        localMax [(5 : ℚ), 5] - localMin [(5 : ℚ), 5] = 0)]
    rfl
  exact ⟨rfl, h2,
    by rw [h2]; exact fun h => DensityError.noConfusion (Except.error.inj h)⟩

/-- Claim C8, amended: `computeFrequencies` contains no degeneracy check
and never fails with `InvalidRange`.  On any nonempty field with
`ρ_max ≤ ρ_min` (hence `ρ_max = ρ_min`) the adaptive path proceeds and
computes the full histogram, and the uniform path performs a division by
zero (undefined behavior in the C++) rather than reporting
`InvalidRange`. -/
theorem computeFrequencies_degenerate_amended (nb : ℕ) (field : List ℚ)
    (hne : field ≠ []) (hdeg : localMax field ≤ localMin field) :
    computeFrequencies true nb field =
        Except.ok (List.replicate nb ((field.length / nb : ℕ) : ℤ)) ∧
      computeFrequencies false nb field = Except.error DensityError.divByZero ∧
      computeFrequencies false nb field ≠ Except.error DensityError.invalidRange := by
  match field, hne with
  | v :: rest, _ =>
    have heq : localMax (v :: rest) = localMin (v :: rest) :=
      le_antisymm hdeg (localMin_le_localMax v rest)
    have hrange : localMax (v :: rest) - localMin (v :: rest) = 0 :=
      sub_eq_zero_of_eq heq
    have huni : computeFrequencies false nb (v :: rest) =
        Except.error DensityError.divByZero := by
      rw [computeFrequencies]
      simp only [Bool.false_eq_true, if_false, frequenciesLoop, uniformHistoBin]
      rw [if_pos hrange]
      rfl
    exact ⟨rfl, huni, by rw [huni]; intro h; cases h⟩

/-- Witness for `computeFrequencies_degenerate_amended` on the field
`[5, 5]` with `nb_bins = 2`. -/
theorem computeFrequencies_degenerate_amended_witness :
    (([(5 : ℚ), 5] : List ℚ) ≠ [] ∧
        localMax [(5 : ℚ), 5] ≤ localMin [(5 : ℚ), 5]) ∧
      (computeFrequencies true 2 [(5 : ℚ), 5] =
          Except.ok (List.replicate 2 ((([(5 : ℚ), 5].length / 2 : ℕ)) : ℤ)) ∧
        computeFrequencies false 2 [(5 : ℚ), 5] =
          Except.error DensityError.divByZero ∧
        computeFrequencies false 2 [(5 : ℚ), 5] ≠
          Except.error DensityError.invalidRange) :=
  ⟨⟨by simp, by norm_num [localMax, localMin]⟩,
    computeFrequencies_degenerate_amended 2 [(5 : ℚ), 5] (by simp)
      (by norm_num [localMax, localMin])⟩

/-! ## C7 — spatial indexer range -/

/-- Claim C7 counterexample: with `cells_per_axis = 2`, extents
`[0, 1]` on every axis (so `R_local = C³ = 8`), the particle `(1, 1, 1)`
lies within the *closed* extents yet maps to logical index `2` on each
axis and flat index `14 ∉ [0, 8)`.  Moreover a particle at `(-1, -1, -1)`,
outside the extents, silently yields the negative index `-14`, which even
passes the only guard in the source (`assert(density_index <
local_rho_count)`), rather than being reported as `OutOfDomain`. -/
theorem deduceDensityIndex_boundary_counterexample :
    deduceDensityIndex (fun _ => 0) (fun _ => 1) 2 (fun _ => 1) = 14 ∧
      ¬ (deduceDensityIndex (fun _ => 0) (fun _ => 1) 2 (fun _ => 1) < 2 ^ 3) ∧
      deduceDensityIndex (fun _ => 0) (fun _ => 1) 2 (fun _ => -1) = -14 ∧
      (-14 : ℤ) < 2 ^ 3 := by
  have h1 : deduceDensityIndex (fun _ => 0) (fun _ => 1) 2 (fun _ => 1) = 14 := by
    norm_num [deduceDensityIndex]
  have h2 : deduceDensityIndex (fun _ => 0) (fun _ => 1) 2 (fun _ => -1) = -14 := by
    norm_num [deduceDensityIndex]
  exact ⟨h1, by rw [h1]; norm_num, h2, by norm_num⟩

/-- Claim C7, amended: for every particle lying in the *half-open* box
(`coord_min ≤ pos < coord_max` on each axis), `deduceDensityIndex`
computes `(i,j,k) = ⌊(pos − coord_min) · C / (coord_max − coord_min)⌋` and
the flat index `i + j·C + k·C²` lies in `[0, C³)` (`R_local = C³`).  A
particle exactly at `coord_max` on an axis gets logical index `C` and can
leave the range, and no `OutOfDomain` report exists in the code: the only
guard is the caller's upper-bound `assert`. -/
theorem deduceDensityIndex_halfopen_range (cmin cmax : Fin 3 → ℚ) (C : ℤ)
    (p : Fin 3 → ℚ) (hC : 0 < C)
    (hin : ∀ d, cmin d ≤ p d ∧ p d < cmax d) :
    0 ≤ deduceDensityIndex cmin cmax C p ∧
      deduceDensityIndex cmin cmax C p < C ^ 3 := by
  have key : ∀ d : Fin 3,
      0 ≤ ⌊(p d - cmin d) * (C : ℚ) / (cmax d - cmin d)⌋ ∧
      ⌊(p d - cmin d) * (C : ℚ) / (cmax d - cmin d)⌋ ≤ C - 1 := by
    intro d
    have h1 : (0 : ℚ) ≤ p d - cmin d := by linarith [(hin d).1]
    have h2 : p d - cmin d < cmax d - cmin d := by linarith [(hin d).2]
    have hr : (0 : ℚ) < cmax d - cmin d := lt_of_le_of_lt h1 h2
    have hCq : (0 : ℚ) < (C : ℚ) := by exact_mod_cast hC
    constructor
    · exact Int.floor_nonneg.mpr (by positivity)
    · have hlt : (p d - cmin d) * (C : ℚ) / (cmax d - cmin d) < (C : ℚ) := by
        rw [div_lt_iff hr]
        nlinarith
      have := Int.floor_lt.mpr hlt
      omega
  obtain ⟨h0a, h1a⟩ := key 0
  obtain ⟨h0b, h1b⟩ := key 1
  obtain ⟨h0c, h1c⟩ := key 2
  simp only [deduceDensityIndex]
  constructor
  · have hb : 0 ≤ ⌊(p 1 - cmin 1) * (C : ℚ) / (cmax 1 - cmin 1)⌋ * C :=
      mul_nonneg h0b hC.le
    have hcc : 0 ≤ ⌊(p 2 - cmin 2) * (C : ℚ) / (cmax 2 - cmin 2)⌋ * C * C :=
      mul_nonneg (mul_nonneg h0c hC.le) hC.le
    omega
  · have hb : ⌊(p 1 - cmin 1) * (C : ℚ) / (cmax 1 - cmin 1)⌋ * C ≤ (C - 1) * C :=
      mul_le_mul_of_nonneg_right h1b hC.le
    have hcc : ⌊(p 2 - cmin 2) * (C : ℚ) / (cmax 2 - cmin 2)⌋ * C * C ≤
        (C - 1) * C * C :=
      mul_le_mul_of_nonneg_right (mul_le_mul_of_nonneg_right h1c hC.le) hC.le
    nlinarith

/-- Witness for `deduceDensityIndex_halfopen_range` at `C = 2`, extents
`[0, 1)`, particle `(1/2, 1/2, 1/2)`. -/
theorem deduceDensityIndex_halfopen_range_witness :
    ((0 : ℤ) < 2 ∧ ∀ d : Fin 3, (0 : ℚ) ≤ 1 / 2 ∧ (1 : ℚ) / 2 < 1) ∧
      (0 ≤ deduceDensityIndex (fun _ => 0) (fun _ => 1) 2 (fun _ => 1 / 2) ∧
        deduceDensityIndex (fun _ => 0) (fun _ => 1) 2 (fun _ => 1 / 2) < 2 ^ 3) :=
  ⟨⟨by norm_num, fun _ => ⟨by norm_num, by norm_num⟩⟩,
    deduceDensityIndex_halfopen_range (fun _ => 0) (fun _ => 1) 2 (fun _ => 1 / 2)
      (by norm_num) (fun _ => ⟨by norm_num, by norm_num⟩)⟩

/-! ## Characterization of the `assignBits` write loops -/

theorem setRangeN_spec (v : ℕ) :
    ∀ (n lo : ℕ) (bits : List ℕ), lo + n ≤ bits.length →
      ∃ l, setRangeN v bits lo n = some l ∧ l.length = bits.length ∧
        ∀ k, l[k]? = if lo ≤ k ∧ k < lo + n then some v else bits[k]? := by
  intro n
  induction n with
  | zero =>
    intro lo bits _
    refine ⟨bits, rfl, rfl, fun k => ?_⟩
    rw [if_neg]
    omega
  | succ n ih =>
    intro lo bits h
    have hlo : lo < bits.length := by omega
    obtain ⟨l, hl, hlen, hget⟩ :=
      ih (lo + 1) (bits.set lo v) (by rw [List.length_set]; omega)
    refine ⟨l, ?_, ?_, ?_⟩
    · simp only [setRangeN, listSet, if_pos hlo, Option.some_bind]
      exact hl
    · rw [hlen, List.length_set]
    · intro k
      rw [hget k]
      by_cases hk : k = lo
      · subst hk
        rw [if_neg (by omega), if_pos ⟨le_refl _, by omega⟩]
        exact List.getElem?_set_self hlo
      · rw [List.getElem?_set_ne (fun he => hk he.symm)]
        by_cases h2 : lo + 1 ≤ k ∧ k < lo + 1 + n
        · rw [if_pos h2, if_pos (by omega)]
        · rw [if_neg h2, if_neg (by omega)]

theorem setRange_spec (v lo hi : ℕ) (bits : List ℕ) (h1 : lo ≤ hi)
    (h2 : hi ≤ bits.length) :
    ∃ l, setRange v bits lo hi = some l ∧ l.length = bits.length ∧
      ∀ k, l[k]? = if lo ≤ k ∧ k < hi then some v else bits[k]? := by
  obtain ⟨l, hl, hlen, hget⟩ := setRangeN_spec v (hi - lo) lo bits (by omega)
  refine ⟨l, hl, hlen, fun k => ?_⟩
  rw [hget k]
  by_cases hk : lo ≤ k ∧ k < hi
  · rw [if_pos (by omega), if_pos hk]
  · rw [if_neg (by omega), if_neg hk]

/-- The value written at position `k` by the ladder that actually executes
in uniform mode (the `mode == 1` branch, lines 357–365). -/
def ladderVariant1 (min_bits max_bits : ℕ) (k : ℕ) : ℕ :=
  if 1200 ≤ k then max_bits
  else if 500 ≤ k then 26
  else if 200 ≤ k then 25
  else if 100 ≤ k then 24
  else if 25 ≤ k then 23
  else if 5 ≤ k then 22
  else if 2 ≤ k then 21
  else if 1 ≤ k then 20
  else min_bits

theorem assignBitsVariant1_spec (nb min_bits max_bits : ℕ) (h : 1200 ≤ nb) :
    ∃ l, assignBitsVariant1 nb min_bits max_bits = some l ∧ l.length = nb ∧
      ∀ k, k < nb → l[k]? = some (ladderVariant1 min_bits max_bits k) := by
  have h0 : 0 < (List.replicate nb (0 : ℕ)).length := by
    rw [List.length_replicate]; omega
  have hd0 : listSet (List.replicate nb 0) 0 min_bits =
      some ((List.replicate nb (0 : ℕ)).set 0 min_bits) := by
    rw [listSet, if_pos h0]
  have hlen0 : ((List.replicate nb (0 : ℕ)).set 0 min_bits).length = nb := by
    rw [List.length_set, List.length_replicate]
  have hget0 : ∀ k, k < nb →
      ((List.replicate nb (0 : ℕ)).set 0 min_bits)[k]? =
        some (if k = 0 then min_bits else 0) := by
    intro k hk
    by_cases hk0 : k = 0
    · subst hk0
      rw [if_pos rfl]
      exact List.getElem?_set_self h0
    · rw [List.getElem?_set_ne (fun he => hk0 he.symm), if_neg hk0,
        List.getElem?_replicate, if_pos hk]
  obtain ⟨b1, e1, l1, g1⟩ :=
    setRange_spec 20 1 2 _ (by omega) (by rw [hlen0]; omega)
  obtain ⟨b2, e2, l2, g2⟩ :=
    setRange_spec 21 2 5 b1 (by omega) (by rw [l1, hlen0]; omega)
  obtain ⟨b3, e3, l3, g3⟩ :=
    setRange_spec 22 5 25 b2 (by omega) (by rw [l2, l1, hlen0]; omega)
  obtain ⟨b4, e4, l4, g4⟩ :=
    setRange_spec 23 25 100 b3 (by omega) (by rw [l3, l2, l1, hlen0]; omega)
  obtain ⟨b5, e5, l5, g5⟩ :=
    setRange_spec 24 100 200 b4 (by omega) (by rw [l4, l3, l2, l1, hlen0]; omega)
  obtain ⟨b6, e6, l6, g6⟩ :=
    setRange_spec 25 200 500 b5 (by omega) (by rw [l5, l4, l3, l2, l1, hlen0]; omega)
  obtain ⟨b7, e7, l7, g7⟩ :=
    setRange_spec 26 500 1200 b6 (by omega)
      (by rw [l6, l5, l4, l3, l2, l1, hlen0]; omega)
  obtain ⟨b8, e8, l8, g8⟩ :=
    setRange_spec max_bits 1200 nb b7 (by omega)
      (by rw [l7, l6, l5, l4, l3, l2, l1, hlen0])
  refine ⟨b8, ?_, by rw [l8, l7, l6, l5, l4, l3, l2, l1, hlen0], ?_⟩
  · simp only [assignBitsVariant1, hd0, Option.some_bind, e1, e2, e3, e4, e5,
      e6, e7, e8]
  · intro k hk
    rw [g8 k, g7 k, g6 k, g5 k, g4 k, g3 k, g2 k, g1 k, hget0 k hk,
      ladderVariant1]
    by_cases r8 : 1200 ≤ k
    · rw [if_pos (⟨r8, hk⟩ : 1200 ≤ k ∧ k < nb), if_pos r8]
    · rw [if_neg (fun hc => r8 hc.1), if_neg r8]
      by_cases r7 : 500 ≤ k
      · rw [if_pos (⟨r7, by omega⟩ : 500 ≤ k ∧ k < 1200), if_pos r7]
      · rw [if_neg (fun hc => r7 hc.1), if_neg r7]
        by_cases r6 : 200 ≤ k
        · rw [if_pos (⟨r6, by omega⟩ : 200 ≤ k ∧ k < 500), if_pos r6]
        · rw [if_neg (fun hc => r6 hc.1), if_neg r6]
          by_cases r5 : 100 ≤ k
          · rw [if_pos (⟨r5, by omega⟩ : 100 ≤ k ∧ k < 200), if_pos r5]
          · rw [if_neg (fun hc => r5 hc.1), if_neg r5]
            by_cases r4 : 25 ≤ k
            · rw [if_pos (⟨r4, by omega⟩ : 25 ≤ k ∧ k < 100), if_pos r4]
            · rw [if_neg (fun hc => r4 hc.1), if_neg r4]
              by_cases r3 : 5 ≤ k
              · rw [if_pos (⟨r3, by omega⟩ : 5 ≤ k ∧ k < 25), if_pos r3]
              · rw [if_neg (fun hc => r3 hc.1), if_neg r3]
                by_cases r2 : 2 ≤ k
                · rw [if_pos (⟨r2, by omega⟩ : 2 ≤ k ∧ k < 5), if_pos r2]
                · rw [if_neg (fun hc => r2 hc.1), if_neg r2]
                  by_cases r1 : 1 ≤ k
                  · rw [if_pos (⟨r1, by omega⟩ : 1 ≤ k ∧ k < 2), if_pos r1]
                  · rw [if_neg (fun hc => r1 hc.1), if_neg r1,
                      if_pos (by omega : k = 0)]

/-- The uniform branch of `assignBits` executes the `mode == 1` ladder:
`bool const mode = 2` stores `true`, and `true` promotes to `1` in
`mode == 1`. -/
theorem assignBits_uniform_eq (nb minb maxb : ℕ) :
    assignBits false nb minb maxb = assignBitsVariant1 nb minb maxb := by
  rw [assignBits, if_pos (by simp),
    if_pos (by decide : modeSelectsVariant1 = true)]

theorem assignBits_adaptive_eq (nb minb maxb : ℕ) :
    assignBits true nb minb maxb = assignBitsAdaptive nb minb maxb := by
  rw [assignBits, if_neg (by simp)]

/-! ## C2 — which ladder ships -/

/-- Claim C2 (code bug): at the spec's E6 input (`nb_bins = 2000`,
`min_bits = 18`, `max_bits = 28`, uniform mode) the executed ladder is
variant *1*, because `bool const mode = 2;` stores `true` and the test
`mode == 1` promotes `true` to `1`.  The code yields `bits[1] = 20`,
`bits[50] = 23`, `bits[150] = 24` — not the claimed variant-2 values
`22`, `24`, `25`.  (`bits[0] = 18` and `bits[1500] = 28` agree.) -/
theorem assignBits_variant1_runs_at_E6 :
    (assignBits false 2000 18 28).bind (fun l => l[0]?) = some 18 ∧
      (assignBits false 2000 18 28).bind (fun l => l[1]?) = some 20 ∧
      (assignBits false 2000 18 28).bind (fun l => l[50]?) = some 23 ∧
      (assignBits false 2000 18 28).bind (fun l => l[150]?) = some 24 ∧
      (assignBits false 2000 18 28).bind (fun l => l[1500]?) = some 28 ∧
      (assignBits false 2000 18 28).bind (fun l => l[1]?) ≠ some 22 ∧
      (assignBits false 2000 18 28).bind (fun l => l[50]?) ≠ some 24 ∧
      (assignBits false 2000 18 28).bind (fun l => l[150]?) ≠ some 25 := by
  obtain ⟨l, hl, hlen, hget⟩ := assignBitsVariant1_spec 2000 18 28 (by omega)
  have he : assignBits false 2000 18 28 = some l := by
    rw [assignBits_uniform_eq]; exact hl
  rw [he]
  simp only [Option.some_bind]
  rw [hget 0 (by omega), hget 1 (by omega), hget 50 (by omega),
    hget 150 (by omega), hget 1500 (by omega)]
  refine ⟨?_, ?_, ?_, ?_, ?_, ?_, ?_, ?_⟩ <;> decide

/-! ## C10 — assignBits write bounds -/

/-- Claim C10 (code bug): in uniform mode with `nb_bins = 10` (a legal
configuration: the constructor only asserts `nb_bins > 0`), the hard-coded
ladder loops of `assignBits` write `bits[10] … bits[1199]` past the end of
the `nb_bins`-sized vector — the out-of-bounds error branch of the total
embedding is reached.  The adaptive policy at the same size stays in
bounds. -/
theorem assignBits_uniform_oob_at_10 :
    assignBits false 10 18 28 = none ∧ assignBits true 10 18 28 ≠ none := by
  constructor
  · rw [assignBits_uniform_eq]; decide
  · rw [assignBits_adaptive_eq]; decide

/-! ## Characterization of the adaptive bit assignment -/

theorem adaptiveOuter_spec (minb maxb N : ℕ) :
    ∀ (m i0 : ℕ) (bits : List ℕ), (i0 + m) * N ≤ bits.length →
      ∃ l, adaptiveOuter minb maxb N bits i0 m = some l ∧
        l.length = bits.length ∧
        ∀ k, l[k]? =
          if i0 * N ≤ k ∧ k < (i0 + m) * N then
            some (if k / N < 2 then minb + k / N else maxb)
          else bits[k]? := by
  intro m
  induction m with
  | zero =>
    intro i0 bits _
    refine ⟨bits, rfl, rfl, fun k => ?_⟩
    rw [Nat.add_zero, if_neg (by omega)]
  | succ m ih =>
    intro i0 bits h
    have hA : (i0 + 1) * N = i0 * N + N := by ring
    have hB : (i0 + 1 + m) * N = i0 * N + N + m * N := by ring
    have hC : (i0 + (m + 1)) * N = i0 * N + N + m * N := by ring
    have hstep : i0 * N + N ≤ bits.length := by
      have h1 : (i0 + 1) * N ≤ (i0 + (m + 1)) * N :=
        Nat.mul_le_mul_right N (by omega)
      omega
    obtain ⟨b1, e1, l1, g1⟩ :=
      setRangeN_spec (if i0 < 2 then minb + i0 else maxb) N (i0 * N) bits
        (by omega)
    obtain ⟨l, hl, hlen, hget⟩ := ih (i0 + 1) b1 (by rw [l1]; omega)
    refine ⟨l, ?_, by rw [hlen, l1], fun k => ?_⟩
    · simp only [adaptiveOuter, e1, Option.some_bind]
      exact hl
    · rw [hget k, g1 k]
      by_cases hN : 0 < N
      · by_cases hk1 : i0 * N ≤ k ∧ k < i0 * N + N
        · have hdiv : k / N = i0 :=
            Nat.div_eq_of_lt_le hk1.1 (by omega)
          rw [if_neg (by omega :
                ¬ ((i0 + 1) * N ≤ k ∧ k < (i0 + 1 + m) * N)),
            if_pos hk1,
            if_pos (by omega : i0 * N ≤ k ∧ k < (i0 + (m + 1)) * N), hdiv]
        · by_cases hk2 : (i0 + 1) * N ≤ k ∧ k < (i0 + 1 + m) * N
          · rw [if_pos hk2,
              if_pos (by omega : i0 * N ≤ k ∧ k < (i0 + (m + 1)) * N)]
          · rw [if_neg hk2, if_neg hk1,
              if_neg (by omega :
                ¬ (i0 * N ≤ k ∧ k < (i0 + (m + 1)) * N))]
      · have hN0 : N = 0 := by omega
        subst hN0
        simp only [Nat.mul_zero]
        rw [if_neg (by omega), if_neg (by omega), if_neg (by omega)]

theorem assignBitsAdaptive_spec (nb minb maxb : ℕ) :
    ∃ l, assignBitsAdaptive nb minb maxb = some l ∧ l.length = nb ∧
      ∀ k, k < nb →
        l[k]? =
          if k < (1 + maxb - minb) * (nb / (1 + maxb - minb)) then
            some (if k / (nb / (1 + maxb - minb)) < 2
              then minb + k / (nb / (1 + maxb - minb)) else maxb)
          else some 0 := by
  obtain ⟨l, hl, hlen, hget⟩ :=
    adaptiveOuter_spec minb maxb (nb / (1 + maxb - minb)) (1 + maxb - minb) 0
      (List.replicate nb 0)
      (by
        rw [List.length_replicate, Nat.zero_add]
        exact Nat.mul_div_le nb (1 + maxb - minb))
  refine ⟨l, ?_, by rw [hlen, List.length_replicate], fun k hk => ?_⟩
  · simp only [assignBitsAdaptive]
    exact hl
  · rw [hget k, Nat.zero_mul, Nat.zero_add]
    by_cases hk2 : k < (1 + maxb - minb) * (nb / (1 + maxb - minb))
    · rw [if_pos ⟨Nat.zero_le k, hk2⟩, if_pos hk2]
    · rw [if_neg (fun hc => hk2 hc.2), if_neg hk2, List.getElem?_replicate,
        if_pos hk]

/-! ## C4 — bit-budget invariant -/

/-- Claim C4 counterexample: with `nb_bins = 1200 > 0` and
`min_bits = 25 < 30 = max_bits` the uniform policy writes `bits[1] = 20 <
min_bits`, breaking `min_bits ≤ bits[b]`; and in the adaptive policy with
`nb_bins = 5`, `min_bits = 3`, `max_bits = 4` (`V = 2`, `N = 2`) the
trailing slot `bits[4]` holds the value-initialized `0`, not `min_bits`. -/
theorem bits_invariant_counterexample :
    (assignBits false 1200 25 30).bind (fun l => l[1]?) = some 20 ∧
      ¬ (25 ≤ 20) ∧
      (assignBits true 5 3 4).bind (fun l => l[4]?) = some 0 ∧
      (0 : ℕ) ≠ 3 := by
  refine ⟨?_, by decide, ?_, by decide⟩
  · obtain ⟨l, hl, hlen, hget⟩ := assignBitsVariant1_spec 1200 25 30 (by omega)
    rw [assignBits_uniform_eq, hl, Option.some_bind, hget 1 (by omega)]
    decide
  · rw [assignBits_adaptive_eq]
    decide

/-- Claim C4, amended.  Adaptive policy: `assignBits` succeeds for every
`nb_bins` and `0 < min_bits < max_bits`; with `V = max_bits − min_bits + 1`
and `N = ⌊nb_bins/V⌋`, every slot below `V·N` holds a value in
`[min_bits, max_bits]`, while the trailing slots (`V·N ≤ k < nb_bins`)
keep the value-initialized `0` — not `min_bits` as claimed.  Uniform
policy: the executed variant-1 ladder stays within `[min_bits, max_bits]`
only under the extra conditions `nb_bins ≥ 1200`, `min_bits ≤ 20` and
`max_bits ≥ 26` (its interior values `20 … 26` are hard-coded). -/
theorem assignBits_bounds_amended (nb minb maxb : ℕ) (hmin : 0 < minb)
    (hlt : minb < maxb) :
    (∃ l, assignBits true nb minb maxb = some l ∧ l.length = nb ∧
        (∀ k, k < (1 + maxb - minb) * (nb / (1 + maxb - minb)) →
          ∃ b, l[k]? = some b ∧ minb ≤ b ∧ b ≤ maxb) ∧
        (∀ k, (1 + maxb - minb) * (nb / (1 + maxb - minb)) ≤ k → k < nb →
          l[k]? = some 0)) ∧
      (1200 ≤ nb → minb ≤ 20 → 26 ≤ maxb →
        ∃ l, assignBits false nb minb maxb = some l ∧ l.length = nb ∧
          ∀ k, k < nb → ∃ b, l[k]? = some b ∧ minb ≤ b ∧ b ≤ maxb) := by
  constructor
  · obtain ⟨l, hl, hlen, hget⟩ := assignBitsAdaptive_spec nb minb maxb
    have hVN : (1 + maxb - minb) * (nb / (1 + maxb - minb)) ≤ nb :=
      Nat.mul_div_le nb (1 + maxb - minb)
    refine ⟨l, by rw [assignBits_adaptive_eq]; exact hl, hlen, ?_, ?_⟩
    · intro k hk
      have hknb : k < nb := lt_of_lt_of_le hk hVN
      rw [hget k hknb, if_pos hk]
      by_cases h2 : k / (nb / (1 + maxb - minb)) < 2
      · rw [if_pos h2]
        exact ⟨minb + k / (nb / (1 + maxb - minb)), rfl,
          Nat.le_add_right _ _, by omega⟩
      · rw [if_neg h2]
        exact ⟨maxb, rfl, le_of_lt hlt, le_refl maxb⟩
    · intro k h1 h2
      rw [hget k h2, if_neg (by omega)]
  · intro h12 h20 h26
    obtain ⟨l, hl, hlen, hget⟩ := assignBitsVariant1_spec nb minb maxb h12
    refine ⟨l, by rw [assignBits_uniform_eq]; exact hl, hlen, ?_⟩
    intro k hk
    rw [hget k hk]
    refine ⟨ladderVariant1 minb maxb k, rfl, ?_, ?_⟩
    · rw [ladderVariant1]
      split_ifs <;> omega
    · rw [ladderVariant1]
      split_ifs <;> omega

/-- Witness for `assignBits_bounds_amended` at `nb_bins = 1200`,
`min_bits = 18`, `max_bits = 28`. -/
theorem assignBits_bounds_amended_witness :
    ((0 : ℕ) < 18 ∧ 18 < 28) ∧
      ((∃ l, assignBits true 1200 18 28 = some l ∧ l.length = 1200 ∧
          (∀ k, k < (1 + 28 - 18) * (1200 / (1 + 28 - 18)) →
            ∃ b, l[k]? = some b ∧ 18 ≤ b ∧ b ≤ 28) ∧
          (∀ k, (1 + 28 - 18) * (1200 / (1 + 28 - 18)) ≤ k → k < 1200 →
            l[k]? = some 0)) ∧
        (1200 ≤ 1200 → 18 ≤ 20 → 26 ≤ 28 →
          ∃ l, assignBits false 1200 18 28 = some l ∧ l.length = 1200 ∧
            ∀ k, k < 1200 → ∃ b, l[k]? = some b ∧ 18 ≤ b ∧ b ≤ 28)) :=
  ⟨⟨by decide, by decide⟩,
    assignBits_bounds_amended 1200 18 28 (by decide) (by decide)⟩

/-! ## Characterization of `bucketParticles` -/

theorem bucketLoop_spec (f : ℕ → ℕ) :
    ∀ (n i0 : ℕ) (bks : List (List ℕ)),
      (∀ i, i0 ≤ i → i < i0 + n → f i < bks.length) →
      ∃ r, bucketLoop f bks i0 n = some r ∧ r.length = bks.length ∧
        ∀ b, r[b]? = (bks[b]?).map
          (fun l => l ++ (List.range' i0 n).filter (fun i => f i = b)) := by
  intro n
  induction n with
  | zero =>
    intro i0 bks _
    refine ⟨bks, rfl, rfl, fun b => ?_⟩
    simp
  | succ n ih =>
    intro i0 bks hf
    have hfi : f i0 < bks.length := hf i0 (le_refl _) (by omega)
    obtain ⟨r, hr, hlen, hget⟩ :=
      ih (i0 + 1) (bks.set (f i0) (bks.getD (f i0) [] ++ [i0]))
        (fun i h1 h2 => by rw [List.length_set]; exact hf i (by omega) (by omega))
    refine ⟨r, ?_, by rw [hlen, List.length_set], fun b => ?_⟩
    · simp only [bucketLoop, emplaceBucket, if_pos hfi, Option.some_bind]
      exact hr
    · rw [hget b, List.range'_succ, List.filter_cons]
      by_cases hfb : f i0 = b
      · subst hfb
        rw [if_pos (by simp)]
        rw [List.getElem?_set_self hfi, List.getElem?_eq_getElem hfi,
          List.getD_eq_getElem?_getD, List.getElem?_eq_getElem hfi]
        simp only [Option.map_some', Option.getD_some, Option.some.injEq]
        rw [List.append_assoc, List.singleton_append]
      · rw [if_neg (by simp [hfb]), List.getElem?_set_ne hfb]

theorem bucketParticles_spec (P nb : ℕ) (f : ℕ → ℕ)
    (hf : ∀ i, i < P → f i < nb) :
    bucketParticles P nb f =
      some ((List.range nb).map
        (fun b => (List.range P).filter (fun i => f i = b))) := by
  obtain ⟨r, hr, hlen, hget⟩ := bucketLoop_spec f P 0 (List.replicate nb [])
    (fun i _ h2 => by rw [List.length_replicate]; exact hf i (by omega))
  rw [bucketParticles, hr]
  congr 1
  apply List.ext_getElem?
  intro b
  rw [hget b]
  by_cases hb : b < nb
  · rw [List.getElem?_replicate, if_pos hb, List.getElem?_map,
      List.getElem?_range hb]
    simp only [Option.map_some', Option.some.injEq, List.nil_append]
    rw [List.range_eq_range']
  · rw [List.getElem?_replicate, if_neg hb,
      List.getElem?_eq_none (by simp; omega)]
    rfl

theorem sum_indicator_range (a : ℕ) :
    ∀ nb : ℕ, ((List.range nb).map (fun b => if a = b then (1 : ℕ) else 0)).sum
      = if a < nb then 1 else 0 := by
  intro nb
  induction nb with
  | zero => rfl
  | succ nb ih =>
    rw [List.range_succ, List.map_append, List.sum_append, ih]
    simp only [List.map_cons, List.map_nil, List.sum_cons, List.sum_nil]
    by_cases h : a = nb
    · rw [if_neg (by omega), if_pos h, if_pos (by omega)]
      omega
    · rw [if_neg h]
      by_cases h2 : a < nb
      · rw [if_pos h2, if_pos (by omega)]
        omega
      · rw [if_neg h2, if_neg (by omega)]
        omega

theorem sum_map_add_distrib (g h : ℕ → ℕ) :
    ∀ L : List ℕ, (L.map (fun b => g b + h b)).sum = (L.map g).sum + (L.map h).sum := by
  intro L
  induction L with
  | nil => rfl
  | cons x t ih =>
    simp only [List.map_cons, List.sum_cons, ih]
    omega

theorem sum_filter_lengths (f : ℕ → ℕ) (nb : ℕ) :
    ∀ l : List ℕ, (∀ i ∈ l, f i < nb) →
      ((List.range nb).map (fun b => (l.filter (fun i => f i = b)).length)).sum
        = l.length := by
  intro l
  induction l with
  | nil => intro _; simp
  | cons x t ih =>
    intro hmem
    have hstep : ∀ b : ℕ, ((x :: t).filter (fun i => f i = b)).length =
        (if f x = b then 1 else 0) + (t.filter (fun i => f i = b)).length := by
      intro b
      rw [List.filter_cons]
      by_cases h : f x = b
      · rw [if_pos (by simp [h]), if_pos h, List.length_cons]
        omega
      · rw [if_neg (by simp [h]), if_neg h]
        omega
    calc ((List.range nb).map
            (fun b => ((x :: t).filter (fun i => f i = b)).length)).sum
        = ((List.range nb).map (fun b =>
            (if f x = b then 1 else 0) +
              (t.filter (fun i => f i = b)).length)).sum := by
          congr 1
          exact List.map_congr_left (fun b _ => hstep b)
      _ = ((List.range nb).map (fun b => if f x = b then 1 else 0)).sum +
            ((List.range nb).map
              (fun b => (t.filter (fun i => f i = b)).length)).sum :=
          sum_map_add_distrib _ _ _
      _ = 1 + t.length := by
          rw [sum_indicator_range, if_pos (hmem x (by simp)),
            ih (fun i hi => hmem i (by simp [hi]))]
      _ = (x :: t).length := by
          rw [List.length_cons]
          omega

/-! ## C6 — the buckets partition the particle indices -/

/-- Claim C6: when `bucketParticles` completes (its per-particle
`assert(bucket_index < nb_bins)` holding, which is the hypothesis `hf` on
the composite per-particle bucket index), the buckets partition
`{0, …, P_local − 1}`: the lengths sum to `P_local`, distinct buckets are
disjoint, and every particle index lies in exactly one bucket. -/
theorem bucketParticles_partition (P nb : ℕ) (f : ℕ → ℕ)
    (hf : ∀ i, i < P → f i < nb) :
    ∃ bks, bucketParticles P nb f = some bks ∧ bks.length = nb ∧
      (bks.map List.length).sum = P ∧
      (∀ b1 b2, b1 ≠ b2 → ∀ i, i ∈ bks.getD b1 [] → i ∉ bks.getD b2 []) ∧
      (∀ i, i < P → ∃ b, b < nb ∧ i ∈ bks.getD b [] ∧
        ∀ c, i ∈ bks.getD c [] → c = b) := by
  refine ⟨(List.range nb).map
      (fun b => (List.range P).filter (fun i => f i = b)),
    bucketParticles_spec P nb f hf, by simp, ?_, ?_, ?_⟩
  · rw [List.map_map]
    have hs := sum_filter_lengths f nb (List.range P)
      (fun i hi => hf i (List.mem_range.mp hi))
    simpa using hs
  · have hmem : ∀ b i, i ∈ ((List.range nb).map
        (fun b => (List.range P).filter (fun i => f i = b))).getD b [] ↔
          (b < nb ∧ i < P ∧ f i = b) := by
      intro b i
      rw [List.getD_eq_getElem?_getD]
      by_cases hb : b < nb
      · rw [List.getElem?_map, List.getElem?_range hb]
        simp [List.mem_filter, hb]
      · rw [List.getElem?_eq_none (by simp; omega)]
        simp [hb]
    intro b1 b2 hne i h1 h2
    have e1 := (hmem b1 i).mp h1
    have e2 := (hmem b2 i).mp h2
    exact hne (by omega)
  · have hmem : ∀ b i, i ∈ ((List.range nb).map
        (fun b => (List.range P).filter (fun i => f i = b))).getD b [] ↔
          (b < nb ∧ i < P ∧ f i = b) := by
      intro b i
      rw [List.getD_eq_getElem?_getD]
      by_cases hb : b < nb
      · rw [List.getElem?_map, List.getElem?_range hb]
        simp [List.mem_filter, hb]
      · rw [List.getElem?_eq_none (by simp; omega)]
        simp [hb]
    intro i hi
    refine ⟨f i, hf i hi, (hmem (f i) i).mpr ⟨hf i hi, hi, rfl⟩, ?_⟩
    intro c hc
    exact ((hmem c i).mp hc).2.2.symm

/-- Witness for `bucketParticles_partition` at `P_local = 4`,
`nb_bins = 2`, bucket index `i % 2`. -/
theorem bucketParticles_partition_witness :
    (∀ i, i < 4 → i % 2 < 2) ∧
      (∃ bks, bucketParticles 4 2 (fun i => i % 2) = some bks ∧
        bks.length = 2 ∧ (bks.map List.length).sum = 4 ∧
        (∀ b1 b2, b1 ≠ b2 → ∀ i, i ∈ bks.getD b1 [] → i ∉ bks.getD b2 []) ∧
        (∀ i, i < 4 → ∃ b, b < 2 ∧ i ∈ bks.getD b [] ∧
          ∀ c, i ∈ bks.getD c [] → c = b)) :=
  ⟨fun i _ => Nat.mod_lt i (by decide),
    bucketParticles_partition 4 2 (fun i => i % 2)
      (fun i _ => Nat.mod_lt i (by decide))⟩

/-! ## C5 — all seven output columns share one permutation -/

theorem zip_const_map (j0 : ℕ) (bkt : List ℕ) :
    (bkt.map (fun _ => j0)).zip bkt = bkt.map (fun p => (j0, p)) := by
  induction bkt with
  | nil => rfl
  | cons x t ih => rw [List.map_cons, List.zip_cons_cons, ih, List.map_cons]

theorem processComponent_eq_tagged_map {α : Type} (rt : ℕ → α → α)
    (bits : ℕ → ℕ) (data : ℕ → α) :
    ∀ (j0 : ℕ) (buckets : List (List ℕ)),
      processComponent rt bits data j0 buckets =
        ((bucketTags j0 buckets).zip (bucketOrder buckets)).map
          (fun jp => rt (bits jp.1) (data jp.2)) := by
  intro j0 buckets
  induction buckets generalizing j0 with
  | nil => rfl
  | cons bkt rest ih =>
    rw [processComponent, bucketTags]
    have horder : bucketOrder (bkt :: rest) = bkt ++ bucketOrder rest := by
      rw [bucketOrder, List.flatten_cons, bucketOrder]
    rw [horder, List.zip_append (by simp), List.map_append, zip_const_map,
      List.map_map, ih (j0 + 1)]
    rfl

/-- Claim C5: the reconstructed output applies one and the same
permutation — `bucketOrder buckets` (bucket order, then within-bucket
source order) — to all seven columns.  `dumpColumn` (used for `id` and the
three velocity components in `Density::dump`) equals mapping the source
column over that single permutation, and `processComponent` (which builds
each decompressed coordinate component in `Density::process`) equals
mapping the per-bucket codec round-trip over the same permutation zipped
with its bucket tags; hence element `m` of every column comes from source
particle `(bucketOrder buckets)[m]`.  At the spec's E4 instance
(`P_local = 4`, buckets `[[3,1],[0],[2]]`) the permutation is
`[3, 1, 0, 2]` and the writer sees `id = [id3, id1, id0, id2]`. -/
theorem output_columns_share_bucket_order {α β γ : Type} (rt : ℕ → α → α)
    (bits : ℕ → ℕ) (data : ℕ → α) (idx : ℕ → β) (vel : ℕ → γ)
    (buckets : List (List ℕ)) :
    dumpColumn idx buckets = (bucketOrder buckets).map idx ∧
      dumpColumn vel buckets = (bucketOrder buckets).map vel ∧
      processComponent rt bits data 0 buckets =
        ((bucketTags 0 buckets).zip (bucketOrder buckets)).map
          (fun jp => rt (bits jp.1) (data jp.2)) ∧
      bucketOrder [[3, 1], [0], [2]] = [3, 1, 0, 2] ∧
      dumpColumn idx [[3, 1], [0], [2]] = [idx 3, idx 1, idx 0, idx 2] := by
  refine ⟨?_, ?_, processComponent_eq_tagged_map rt bits data 0 buckets,
    rfl, rfl⟩
  · rw [dumpColumn, bucketOrder, List.map_flatten]
  · rw [dumpColumn, bucketOrder, List.map_flatten]
